import Mathlib

set_option maxRecDepth 2000

/-
Verification development for the document context retrieval engine of the
encompliance backend.  The definitions below are shallow embeddings of the
Python code in app/services/document_service.py and app/services/llm_service.py.
Text is modelled as List Char; Python strings map to Lean character lists via
String.data.  Python integer arithmetic on lengths and scores is modelled with
Nat, and the float score arithmetic of the hybrid scorer with the rationals.
-/

/-! ### Python string primitives -/

/-- Whitespace test matching the ASCII behaviour of the Python str.isspace and
regex class used by the source (space, tab, newline, carriage return, vertical
tab, form feed). -/
def pyIsSpace (c : Char) : Bool :=
  c = ' ' || c = '\t' || c = '\n' || c = '\r' || c = '\x0b' || c = '\x0c'

/-- ASCII lower-casing of one character, as Python str.lower does on ASCII. -/
def pyToLower (c : Char) : Char :=
  if 'A' ≤ c ∧ c ≤ 'Z' then Char.ofNat (c.toNat + 32) else c

/-- Python str.lower on a whole string. -/
def pyLower (l : List Char) : List Char := l.map pyToLower

/-- Python str.strip: drop whitespace from both ends. -/
def pstrip (l : List Char) : List Char :=
  ((l.dropWhile pyIsSpace).reverse.dropWhile pyIsSpace).reverse

/-- Helper for the whitespace tokenizer: cur is the reversed current word. -/
def wordsAux : List Char → List Char → List (List Char)
  | cur, [] => if cur.isEmpty then [] else [cur.reverse]
  | cur, c :: rest =>
    if pyIsSpace c then
      if cur.isEmpty then wordsAux [] rest else cur.reverse :: wordsAux [] rest
    else wordsAux (c :: cur) rest

/-- Python str.split() with no argument: maximal non-whitespace runs, empties
dropped.  Also serves as the whitespace normal form of a text. -/
def words (l : List Char) : List (List Char) := wordsAux [] l

/-- Python substring containment (the in operator), as a Bool. -/
def hasSub (n : List Char) : List Char → Bool
  | [] => n.isEmpty
  | c :: rest => n.isPrefixOf (c :: rest) || hasSub n rest

/-- Scanner for the non-overlapping substring count: skip counts characters of
the current match still to be passed over before the next match may start. -/
def countSubAux (n : List Char) : Nat → List Char → Nat
  | _, [] => 0
  | k + 1, _ :: rest => countSubAux n k rest
  | 0, c :: rest =>
    if n.isPrefixOf (c :: rest) then 1 + countSubAux n (n.length - 1) rest
    else countSubAux n 0 rest

/-- Python str.count: number of non-overlapping occurrences, scanning left to
right. -/
def countSub (n l : List Char) : Nat := countSubAux n 0 l

/-- Prepend a character to the first part of a split result. -/
def consHead (c : Char) : List (List Char) → List (List Char)
  | [] => [[c]]
  | p :: ps => (c :: p) :: ps

/-- Python str.split with the two-character separator of two newlines, keeping
empty parts, scanning left to right. -/
def splitSep : List Char → List (List Char)
  | [] => [[]]
  | '\n' :: '\n' :: rest => [] :: splitSep rest
  | c :: rest => consHead c (splitSep rest)

/-- Python str.split with a single-character separator. -/
def splitChar (sep : Char) : List Char → List (List Char)
  | [] => [[]]
  | c :: rest =>
    if c = sep then [] :: splitChar sep rest
    else
      match splitChar sep rest with
      | [] => [[c]]
      | p :: ps => (c :: p) :: ps

/-- Index of the last newline in a list, if any. -/
def lastNl : List Char → Option Nat
  | [] => none
  | c :: rest =>
    match lastNl rest with
    | some j => some (j + 1)
    | none => if c = '\n' then some 0 else none

/-- Length of the greedy match of the regex of a newline, then any whitespace,
then a newline, anchored at the head of the list.  With greedy backtracking the
match runs from the leading newline to the last newline inside the maximal
whitespace run that follows it. -/
def blankMatchLen : List Char → Option Nat
  | '\n' :: rest =>
    match lastNl (rest.takeWhile pyIsSpace) with
    | some j => some (j + 2)
    | none => none
  | _ => none

/-- Scanner for the regex split on blank lines: acc is the reversed current
part; at each position the leftmost greedy match is tried. -/
def sbAux (acc : List Char) : List Char → List (List Char)
  | [] => [acc.reverse]
  | c :: rest =>
    match blankMatchLen (c :: rest) with
    | some n => acc.reverse :: sbAux [] (List.drop (n - 1) rest)
    | none => sbAux (c :: acc) rest
termination_by l => l.length
decreasing_by
  · simp only [List.length_cons, List.length_drop]
    omega
  · simp

/-- The paragraph split used throughout the source: re.split of the pattern
newline, whitespace star, newline. -/
def splitBlank (l : List Char) : List (List Char) := sbAux [] l

/-- The two-newline separator string. -/
def nn : List Char := ['\n', '\n']

/-- Join a list of parts with blank-line separators. -/
def joinNN (parts : List (List Char)) : List Char := List.intercalate nn parts

/-- Stable insertion placing x before the first element y with le x y. -/
def sinsert (le : α → α → Bool) (x : α) : List α → List α
  | [] => [x]
  | y :: ys => if le x y then x :: y :: ys else y :: sinsert le x ys

/-- Stable sort modelling the Python list.sort: an element moves before another
only when the order strictly requires it, so ties keep original order. -/
def ssort (le : α → α → Bool) : List α → List α
  | [] => []
  | x :: xs => sinsert le x (ssort le xs)


/-! ### Keyword scoring (score_chunks_by_keywords, and the identical inline
scoring loop of get_relevant_chunks) -/

/-- Term-frequency part of the keyword score: for every query term longer than
two characters, add the count of its occurrences in the lowered chunk text. -/
def freqScore (terms : List (List Char)) (chunkLower : List Char) : Nat :=
  (terms.map (fun t => if 2 < t.length then countSub t chunkLower else 0)).sum

/-- Adjacency part of the keyword score: five points for every pair of terms
adjacent in the token list, both longer than two characters, whose space-joined
pair occurs in the lowered chunk text. -/
def adjScore (terms : List (List Char)) (chunkLower : List Char) : Nat :=
  ((terms.zip terms.tail).map (fun p =>
    if 2 < p.1.length ∧ 2 < p.2.length ∧ hasSub (p.1 ++ ' ' :: p.2) chunkLower
    then 5 else 0)).sum

/-- Paragraph co-occurrence part of the keyword score: for every paragraph of
the chunk (split on two newlines) in which more than one token of the term
list (counted with multiplicity) occurs, add twice that token count. -/
def paraScore (terms : List (List Char)) (chunkContent : List Char) : Nat :=
  ((splitSep chunkContent).map (fun para =>
    let tc := terms.countP (fun t => 2 < t.length && hasSub t (pyLower para))
    if 1 < tc then 2 * tc else 0)).sum

/-- Keyword score of one chunk against a query, following the three scoring
loops of the source: the query is lowered and split on whitespace, then term
frequency, adjacent-pair bonus and same-paragraph bonus are accumulated. -/
def keywordScore (query chunkContent : List Char) : Nat :=
  let terms := words (pyLower query)
  freqScore terms (pyLower chunkContent) + adjScore terms (pyLower chunkContent)
    + paraScore terms chunkContent

/-- score_chunks_by_keywords: keyword score of every chunk, in chunk order. -/
def scoreChunksByKeywords (chunks : List (List Char)) (query : List Char) : List Nat :=
  chunks.map (fun c => keywordScore query c)

/-! ### Chunker (create_document_index lines 115 to 143, and the identical
loop of get_relevant_chunks lines 706 to 722) -/

/-- Greedy accumulation of paragraphs into chunks: if the next paragraph still
fits within chunkSize it is appended to the running buffer together with a
blank-line separator, otherwise the non-empty buffer is sealed (stripped) and
a new buffer starts with that paragraph; the final non-empty buffer is sealed
last. -/
def chunkAux (chunkSize : Nat) : List Char → List (List Char) → List (List Char)
  | cur, [] => if cur.isEmpty then [] else [pstrip cur]
  | cur, p :: rest =>
    if cur.length + p.length ≤ chunkSize then chunkAux chunkSize (cur ++ p ++ nn) rest
    else if cur.isEmpty then chunkAux chunkSize (p ++ nn) rest
    else pstrip cur :: chunkAux chunkSize (p ++ nn) rest

/-- Chunk contents produced for a body text: split the body on blank lines,
then greedily group paragraphs near chunkSize.  create_document_index uses
chunkSize 5000, get_relevant_chunks uses its chunk_size argument. -/
def chunkBody (chunkSize : Nat) (content : List Char) : List (List Char) :=
  chunkAux chunkSize [] (splitBlank content)

/-! ### Chunk selection and context assembly (get_relevant_chunks lines 728 to
772, get_document_context lines 543 to 549, get_document_from_index lines 292
to 306) -/

/-- Descending stable sort of scored chunks, as the Python list.sort with a
score key and reverse set. -/
def sortByScoreDesc (l : List (List Char × Nat)) : List (List Char × Nat) :=
  ssort (fun a b => decide (b.2 ≤ a.2)) l

/-- Chunk selection of get_relevant_chunks: score every chunk, sort descending
by score, prepend the first chunk with score zero when it is not among the top
maxChunks, and return the contents of the first maxChunks entries. -/
def selectTopChunks (chunks : List (List Char)) (query : List Char) (maxChunks : Nat) :
    List (List Char) :=
  let scored := sortByScoreDesc (chunks.map (fun c => (c, keywordScore query c)))
  let scored2 :=
    match chunks with
    | [] => scored
    | c0 :: _ =>
      if c0 ∈ (scored.take maxChunks).map Prod.fst then scored else (c0, 0) :: scored
  (scored2.take maxChunks).map Prod.fst

/-- get_relevant_chunks: chunk the text, then select the top chunks for the
query. -/
def getRelevantChunks (text query : List Char) (maxChunks chunkSize : Nat) :
    List (List Char) :=
  selectTopChunks (chunkBody chunkSize text) query maxChunks

/-- Header line written above the i-th selected section. -/
def sectionMarker (i : Nat) : List Char :=
  "--- RELEVANT SECTION ".data ++ Nat.toDigits 10 i ++ " ---\n".data

/-- Wrap each selected chunk with its numbered section marker, numbering from
i upward. -/
def wrapSections (i : Nat) : List (List Char) → List (List Char)
  | [] => []
  | c :: rest => (sectionMarker i ++ c) :: wrapSections (i + 1) rest

/-- Note appended after every query-filtered assembly. -/
def filterNote : List Char :=
  ("\n\n[Note: Content has been filtered to show only the most relevant " ++
   "sections based on the query. The full document contains more information.]").data

/-- Assembly of the query-filtered content: marker-wrapped sections joined
with blank lines, followed by the fixed filtering note. -/
def assembleFiltered (tops : List (List Char)) : List Char :=
  joinNN (wrapSections 1 tops) ++ filterNote

/-! ### Context length budget (llm_service lines 91 to 94) -/

/-- Fixed truncation notice appended when the context exceeds the budget. -/
def truncationNotice : List Char := "\n[Context truncated due to length]".data

/-- Budget enforcement of llm_service: when the context is longer than the
budget it is cut to the first maxContextLength characters and the truncation
notice is appended, otherwise it is returned unchanged. -/
def maxContextTrim (maxContextLength : Nat) (ctx : List Char) : List Char :=
  if maxContextLength < ctx.length then ctx.take maxContextLength ++ truncationNotice
  else ctx

/-! ### Hybrid scoring (get_document_from_index lines 239 to 270) -/

/-- Descending stable sort of rational-scored chunks. -/
def sortByQScoreDesc (l : List (List Char × ℚ)) : List (List Char × ℚ) :=
  ssort (fun a b => decide (b.2 ≤ a.2)) l

/-- Hybrid scored chunks: pair every chunk with its cosine similarity, sort
descending by similarity, then combine the i-th entry of that sorted list with
the i-th keyword score of the original chunk order, weighting similarity by
seven tenths and the keyword score, divided by ten, by three tenths, and sort
the combined scores descending.  Float arithmetic of the source is modelled
with exact rationals. -/
def hybridScoredChunks (chunks : List (List Char)) (sims : List ℚ) (query : List Char) :
    List (List Char × ℚ) :=
  let scored := chunks.zip sims
  let semSorted := sortByQScoreDesc scored
  let kw := scoreChunksByKeywords chunks query
  let hybrid := (semSorted.zip kw).map (fun p =>
    (p.1.1, p.1.2 * (7 / 10 : ℚ) + ((p.2 : ℚ) / 10) * (3 / 10)))
  sortByQScoreDesc hybrid

/-! ### Multi-document context formatting (get_document_context lines 636 to
685) -/

/-- Per-document context record collected before formatting: the extracted
title, chapters, headings and content, and the recorded total length. -/
structure DocCtx where
  title : List Char
  chapters : List Char
  headings : List Char
  content : List Char
  length : Nat
deriving DecidableEq

/-- Ascending stable sort of the document records by recorded length, shorter
documents first. -/
def sortDocsByLength (docs : List DocCtx) : List DocCtx :=
  ssort (fun a b => decide (a.length ≤ b.length)) docs

/-- Documents contributing to the chapters section: sorted documents with a
non-empty chapters field. -/
def chaptersDocs (docs : List DocCtx) : List DocCtx :=
  (sortDocsByLength docs).filter (fun d => !d.chapters.isEmpty)

/-- Documents contributing to the headings section: sorted documents with a
non-empty headings field. -/
def headingsDocs (docs : List DocCtx) : List DocCtx :=
  (sortDocsByLength docs).filter (fun d => !d.headings.isEmpty)

/-- Titles section entries, one per sorted document. -/
def titlesSection (docs : List DocCtx) : List (List Char) :=
  (sortDocsByLength docs).map (fun d => d.title)

/-- Chapters section entries. -/
def chaptersSection (docs : List DocCtx) : List (List Char) :=
  (chaptersDocs docs).map (fun d =>
    "--- CHAPTERS FROM ".data ++ d.title ++ " ---\n".data ++ d.chapters)

/-- Headings section entries. -/
def headingsSection (docs : List DocCtx) : List (List Char) :=
  (headingsDocs docs).map (fun d =>
    "--- HEADINGS FROM ".data ++ d.title ++ " ---\n".data ++ d.headings)

/-- Content header for one document, with the star highlight for documents
whose recorded length is below one thousand characters. -/
def contentHeader (d : DocCtx) : List Char :=
  let base := "--- DOCUMENT CONTENT: ".data ++ d.title ++ " ---".data
  if d.length < 1000 then
    "⭐⭐⭐ IMPORTANT DOCUMENT ⭐⭐⭐\n".data ++ base ++
      "\n⭐⭐⭐ PLEASE READ CAREFULLY ⭐⭐⭐".data
  else base

/-- Content section entries, one per sorted document. -/
def contentSection (docs : List DocCtx) : List (List Char) :=
  (sortDocsByLength docs).map (fun d =>
    contentHeader d ++ '\n' :: d.content ++ ['\n'])

/-- Join section entries with single newlines. -/
def joinNl (parts : List (List Char)) : List Char := List.intercalate ['\n'] parts

/-- Full prioritized context string returned by get_document_context: titles,
then chapters and headings when present, then content, in that fixed order. -/
def documentContextResult (docs : List DocCtx) : List Char :=
  let base := "### DOCUMENT TITLES ###\n".data ++ joinNl (titlesSection docs) ++ nn
  let base := base ++
    (if (chaptersSection docs).isEmpty then []
     else "### DOCUMENT CHAPTERS ###\n".data ++ joinNN (chaptersSection docs) ++ nn)
  let base := base ++
    (if (headingsSection docs).isEmpty then []
     else "### DOCUMENT HEADINGS ###\n".data ++ joinNN (headingsSection docs) ++ nn)
  base ++ "### DOCUMENT CONTENT ###\n".data ++ joinNl (contentSection docs)

/-! ### Structured PDF extraction (extract_text_from_pdf lines 879 to 970) -/

/-- ASCII upper-case letter test. -/
def pyIsUpperAlpha (c : Char) : Bool := 'A' ≤ c && c ≤ 'Z'

/-- ASCII letter test (the cased characters of the ASCII range). -/
def pyIsAlpha (c : Char) : Bool := ('A' ≤ c && c ≤ 'Z') || ('a' ≤ c && c ≤ 'z')

/-- Python str.isupper on ASCII text: at least one cased character and no
lower-case cased character. -/
def pyIsUpper (l : List Char) : Bool :=
  l.any pyIsAlpha && l.all (fun c => !pyIsAlpha c || pyIsUpperAlpha c)

/-- ASCII digit test. -/
def pyIsDigit (c : Char) : Bool := '0' ≤ c && c ≤ '9'

/-- Roman numeral letter test. -/
def pyIsRoman (c : Char) : Bool :=
  c = 'I' || c = 'V' || c = 'X' || c = 'L' || c = 'C' || c = 'D' || c = 'M'

/-- Match of one or more whitespace characters followed by a character
satisfying p, anchored at the head. -/
def wsThen (p : Char → Bool) (r : List Char) : Bool :=
  match r with
  | [] => false
  | c :: _ =>
    pyIsSpace c &&
      (match r.dropWhile pyIsSpace with
       | [] => false
       | d :: _ => p d)

/-- Keyword alternatives of the chapter heading regex. -/
def headingKeywords : List (List Char) :=
  ["CHAPTER".data, "Chapter".data, "Section".data, "SECTION".data,
   "PART".data, "Part".data]

/-- Match of the regex: one of the heading keywords, then whitespace, then a
digit, anchored at the start. -/
def kwNumMatch (t : List Char) : Bool :=
  headingKeywords.any (fun w => w.isPrefixOf t && wsThen pyIsDigit (t.drop w.length))

/-- Match of the regex: one or more characters satisfying p, then a period,
then whitespace, then an upper-case letter, anchored at the start. -/
def runDotCapMatch (p : Char → Bool) (t : List Char) : Bool :=
  match t with
  | [] => false
  | c :: _ =>
    p c &&
      (match t.dropWhile p with
       | '.' :: r => wsThen pyIsUpperAlpha r
       | _ => false)

/-- The is_heading heuristic of extract_text_from_pdf, applied to one line. -/
def isHeading (line : List Char) : Bool :=
  let text := pstrip line
  if text.isEmpty then false
  else if pyIsUpper text && 3 < text.length && text.length < 100 then true
  else if kwNumMatch text then true
  else if runDotCapMatch pyIsDigit text && text.length < 100 then true
  else if runDotCapMatch pyIsRoman text && text.length < 100 then true
  else false

/-- Classification of the stripped non-empty lines of one page into chapter
lines, heading lines and content lines, in page order. -/
def processLines : List (List Char) → List (List Char) × List (List Char) × List (List Char)
  | [] => ([], [], [])
  | l :: rest =>
    let line := pstrip l
    let r := processLines rest
    if line.isEmpty then r
    else if isHeading line then
      if hasSub "chapter".data (pyLower line) || hasSub "section".data (pyLower line)
      then (line :: r.1, r.2.1, r.2.2)
      else (r.1, line :: r.2.1, r.2.2)
    else (r.1, r.2.1, line :: r.2.2)

/-- Aggregated scan of all pages of a document. -/
structure PageScan where
  chapters : List (List Char)
  headings : List (List Char)
  blocks : List (List Char)
  totalChars : Nat
deriving DecidableEq

/-- Page loop of extract_text_from_pdf: empty page texts are skipped, lines of
each page are classified, and per-page content lines are joined with newlines
into one content block whose length is added to the running total. -/
def extractPages : List (List Char) → PageScan
  | [] => ⟨[], [], [], 0⟩
  | page :: rest =>
    let s := extractPages rest
    if page.isEmpty then s
    else
      let r := processLines (splitChar '\n' page)
      match r.2.2 with
      | [] => ⟨r.1 ++ s.chapters, r.2.1 ++ s.headings, s.blocks, s.totalChars⟩
      | pc =>
        let blk := joinNl pc
        ⟨r.1 ++ s.chapters, r.2.1 ++ s.headings, blk :: s.blocks,
         s.totalChars + blk.length⟩

/-- Result of the structured extraction: either the structured fields with the
total character count, or an error message. -/
inductive PdfResult where
  | ok (title chapters headings content : List Char) (totalChars : Nat)
  | err (msg : List Char)
deriving DecidableEq

/-- Error test on an extraction result. -/
def PdfResult.isErr : PdfResult → Bool
  | .ok _ _ _ _ _ => false
  | .err _ => true

/-- Tail of extract_text_from_pdf, from the page loop onward: build the
structured result; when the total extracted character count is zero, try the
single alternative extractor (modelled by the altText argument, none standing
for an unavailable or failing alternative) and return its text when non-empty,
otherwise return the original structured result unchanged. -/
def extractTextFromPdf (title : List Char) (pages : List (List Char))
    (altText : Option (List Char)) : PdfResult :=
  let s := extractPages pages
  let primary := PdfResult.ok title (joinNl s.chapters) (joinNl s.headings)
    (joinNN s.blocks) s.totalChars
  if s.totalChars = 0 then
    match altText with
    | some t => if t.isEmpty then primary else PdfResult.ok title [] [] t t.length
    | none => primary
  else primary

/-! ### Embedding capability state (module flag USE_EMBEDDINGS,
get_embedding_model and compute_embeddings, lines 29 to 64) -/

/-- Module-level mutable state: the capability flag and whether the lazy model
is loaded. -/
structure EmbState where
  useEmbeddings : Bool
  modelLoaded : Bool
deriving DecidableEq

/-- Outcome of one attempted model load. -/
inductive LoadOutcome where
  | ok
  | fail
deriving DecidableEq

/-- Outcome of one encode call on a loaded model. -/
inductive EncodeOutcome where
  | ok
  | fail
deriving DecidableEq

/-- get_embedding_model: return the cached model when loaded; otherwise try to
load it, and on a load exception clear the capability flag and return no
model. -/
def getEmbeddingModel (st : EmbState) (load : LoadOutcome) : Bool × EmbState :=
  if st.modelLoaded then (true, st)
  else
    match load with
    | .ok => (true, ⟨st.useEmbeddings, true⟩)
    | .fail => (false, ⟨false, st.modelLoaded⟩)

/-- compute_embeddings: return nothing at once when the capability flag is
clear; otherwise fetch the model (an absent model makes the encode call raise,
which the handler turns into a none result), and an encode exception likewise
yields a none result while leaving the flag untouched. -/
def computeEmbeddings (st : EmbState) (load : LoadOutcome) (enc : EncodeOutcome) :
    Bool × EmbState :=
  if !st.useEmbeddings then (false, st)
  else
    let m := getEmbeddingModel st load
    if !m.1 then (false, m.2)
    else
      match enc with
      | .ok => (true, m.2)
      | .fail => (false, m.2)

/-- Iterated embedding computations across later requests, collecting whether
each call returned embeddings. -/
def runComputeSeq (st : EmbState) : List (LoadOutcome × EncodeOutcome) → List Bool × EmbState
  | [] => ([], st)
  | o :: rest =>
    let r := computeEmbeddings st o.1 o.2
    let t := runComputeSeq r.2 rest
    (r.1 :: t.1, t.2)

/-- Path selection of get_document_from_index line 224: embeddings are used
for a query only when the capability flag is set and the embedding file
exists. -/
def usesEmbeddingsForQuery (st : EmbState) (embFileExists : Bool) : Bool :=
  st.useEmbeddings && embFileExists

/-! ### Reference formulations used to compare the code with the wording of
the specification -/

/-- Modelled from the spec wording of the keyword score (claim C6): tokens of
length at most two are discarded first; the adjacency bonus ranges over pairs
adjacent in the remaining token list; the paragraph bonus counts distinct
matching tokens. -/
def specKeywordScore (query content : List Char) : Nat :=
  let rem := (words (pyLower query)).filter (fun t => 2 < t.length)
  let cl := pyLower content
  (rem.map (fun t => countSub t cl)).sum
    + 5 * ((rem.zip rem.tail).countP (fun p => hasSub (p.1 ++ ' ' :: p.2) cl))
    + ((splitSep content).map (fun para =>
        let d := rem.dedup.countP (fun t => hasSub t (pyLower para))
        if 1 < d then 2 * d else 0)).sum

/-- Amended description of the keyword score: same term frequency over tokens
longer than two characters, the adjacency bonus taken over pairs adjacent in
the original token list with both members longer than two characters, and the
paragraph bonus counting matching long tokens with multiplicity. -/
def amendedKeywordScore (query content : List Char) : Nat :=
  let terms := words (pyLower query)
  let cl := pyLower content
  ((terms.filter (fun t => 2 < t.length)).map (fun t => countSub t cl)).sum
    + 5 * ((terms.zip terms.tail).countP (fun p =>
        2 < p.1.length && (2 < p.2.length && hasSub (p.1 ++ ' ' :: p.2) cl)))
    + ((splitSep content).map (fun para =>
        let tc := (terms.filter (fun t => 2 < t.length)).countP
          (fun t => hasSub t (pyLower para))
        if 1 < tc then 2 * tc else 0)).sum

/-! ### Concrete inputs used by the example scenario of the chunker -/

/-- One paragraph of four thousand characters. -/
def para4000 : List Char := List.replicate 4000 'a'

/-- Body of three paragraphs of four thousand characters each, separated by
blank lines. -/
def exampleBody : List Char := para4000 ++ nn ++ para4000 ++ nn ++ para4000

/-- Append a suffix to the last part of a split result. -/
def modLast (s : List Char) : List (List Char) → List (List Char)
  | [] => []
  | [p] => [p ++ s]
  | p :: ps => p :: modLast s ps


/-! ## Lemmas about the whitespace tokenizer -/

theorem wordsAux_all_space {s : List Char} (hs : ∀ c ∈ s, pyIsSpace c = true)
    (cur : List Char) :
    wordsAux cur s = if cur.isEmpty then [] else [cur.reverse] := by
  induction s generalizing cur with
  | nil => rfl
  | cons c s2 ih =>
    have hc : pyIsSpace c = true := hs c (by simp)
    have hs2 : ∀ d ∈ s2, pyIsSpace d = true := fun d hd => hs d (by simp [hd])
    by_cases hcur : cur.isEmpty = true <;> simp [wordsAux, hc, hcur, ih hs2]

theorem wordsAux_space_append {w : List Char} (hw : ∀ c ∈ w, pyIsSpace c = true)
    (b : List Char) : wordsAux [] (w ++ b) = wordsAux [] b := by
  induction w with
  | nil => rfl
  | cons c w2 ih =>
    have hc : pyIsSpace c = true := hw c (by simp)
    have hw2 : ∀ d ∈ w2, pyIsSpace d = true := fun d hd => hw d (by simp [hd])
    simp [wordsAux, hc, ih hw2]

theorem wordsAux_sep {s : List Char} (hs : ∀ c ∈ s, pyIsSpace c = true) (hne : s ≠ [])
    (b : List Char) (a : List Char) : ∀ cur : List Char,
    wordsAux cur (a ++ (s ++ b)) = wordsAux cur a ++ wordsAux [] b := by
  induction a with
  | nil =>
    intro cur
    rcases s with _ | ⟨c, s2⟩
    · exact absurd rfl hne
    · have hc : pyIsSpace c = true := hs c (by simp)
      have hs2 : ∀ d ∈ s2, pyIsSpace d = true := fun d hd => hs d (by simp [hd])
      by_cases hcur : cur.isEmpty = true <;>
        simp [wordsAux, hc, hcur, wordsAux_space_append hs2 b]
  | cons c a2 ih =>
    intro cur
    by_cases hc : pyIsSpace c = true
    · by_cases hcur : cur.isEmpty = true <;> simp [wordsAux, hc, hcur, ih]
    · simpa [wordsAux, hc] using ih (c :: cur)

theorem words_sep {s : List Char} (hs : ∀ c ∈ s, pyIsSpace c = true) (hne : s ≠ [])
    (a b : List Char) : words (a ++ s ++ b) = words a ++ words b := by
  rw [List.append_assoc]
  exact wordsAux_sep hs hne b a []

theorem nn_all_space : ∀ c ∈ nn, pyIsSpace c = true := by decide

theorem nn_ne_nil : nn ≠ [] := by decide

theorem words_nn (a b : List Char) : words (a ++ nn ++ b) = words a ++ words b :=
  words_sep nn_all_space nn_ne_nil a b

theorem wordsAux_append_space {w : List Char} (hw : ∀ c ∈ w, pyIsSpace c = true)
    (a : List Char) : ∀ cur : List Char, wordsAux cur (a ++ w) = wordsAux cur a := by
  induction a with
  | nil =>
    intro cur
    rw [List.nil_append, wordsAux_all_space hw]
    rfl
  | cons c a2 ih =>
    intro cur
    by_cases hc : pyIsSpace c = true
    · by_cases hcur : cur.isEmpty = true <;> simp [wordsAux, hc, hcur, ih]
    · simpa [wordsAux, hc] using ih (c :: cur)

theorem words_append_space {w : List Char} (hw : ∀ c ∈ w, pyIsSpace c = true)
    (a : List Char) : words (a ++ w) = words a :=
  wordsAux_append_space hw a []

theorem joinNN_single (x : List Char) : joinNN [x] = x := by
  simp [joinNN, List.intercalate]

theorem joinNN_cons₂ (x y : List Char) (l : List (List Char)) :
    joinNN (x :: y :: l) = x ++ nn ++ joinNN (y :: l) := by
  simp [joinNN, List.intercalate, List.intersperse]

theorem words_joinNN (L : List (List Char)) : words (joinNN L) = (L.map words).flatten := by
  induction L with
  | nil => rfl
  | cons x L ih =>
    cases L with
    | nil => simp [joinNN_single, words]
    | cons y L2 => rw [joinNN_cons₂, words_nn, ih]; simp

theorem words_dropWhile_space (l : List Char) :
    words (l.dropWhile pyIsSpace) = words l := by
  conv_rhs => rw [← List.takeWhile_append_dropWhile pyIsSpace l]
  exact (wordsAux_space_append (fun c hc => List.mem_takeWhile_imp hc) _).symm

theorem words_pstrip (l : List Char) : words (pstrip l) = words l := by
  have h1 : words (l.dropWhile pyIsSpace) = words l := words_dropWhile_space l
  have hdecomp : l.dropWhile pyIsSpace
      = pstrip l ++ ((l.dropWhile pyIsSpace).reverse.takeWhile pyIsSpace).reverse := by
    conv_lhs =>
      rw [← List.reverse_reverse (l.dropWhile pyIsSpace),
        ← List.takeWhile_append_dropWhile pyIsSpace (l.dropWhile pyIsSpace).reverse]
    rw [List.reverse_append]
    rfl
  rw [← h1, hdecomp]
  exact (@words_append_space ((l.dropWhile pyIsSpace).reverse.takeWhile pyIsSpace).reverse
    (fun c hc => List.mem_takeWhile_imp (List.mem_reverse.mp hc)) (pstrip l)).symm

/-! ## Lemmas about the blank-line split -/

theorem lastNl_lt {L : List Char} {j : Nat} (h : lastNl L = some j) : j < L.length := by
  induction L generalizing j with
  | nil => simp [lastNl] at h
  | cons c rest ih =>
    rw [lastNl] at h
    cases hrec : lastNl rest with
    | some j2 =>
      rw [hrec] at h
      have : j = j2 + 1 := by simpa using h.symm
      subst this
      have := ih hrec
      simp
      omega
    | none =>
      rw [hrec] at h
      by_cases hc : c = '\n'
      · simp [hc] at h
        subst h
        simp
      · simp [hc] at h

theorem take_eq_take_takeWhile {p : Char → Bool} {l : List Char} {k : Nat}
    (h : k ≤ (l.takeWhile p).length) : l.take k = (l.takeWhile p).take k := by
  have hpre : List.takeWhile p l <+: l := List.takeWhile_prefix p
  obtain ⟨t, ht⟩ := hpre
  conv_lhs => rw [← ht]
  rw [List.take_append_of_le_length h]

theorem blankMatchLen_spec {l : List Char} {n : Nat} (h : blankMatchLen l = some n) :
    2 ≤ n ∧ n ≤ l.length ∧ ∀ c ∈ l.take n, pyIsSpace c = true := by
  rcases l with _ | ⟨c, rest⟩
  · simp [blankMatchLen] at h
  · by_cases hc : c = '\n'
    · subst hc
      rw [blankMatchLen] at h
      cases hlast : lastNl (rest.takeWhile pyIsSpace) with
      | none => rw [hlast] at h; simp at h
      | some j =>
        rw [hlast] at h
        have hn : n = j + 2 := by simpa using h.symm
        subst hn
        have hjlt : j < (rest.takeWhile pyIsSpace).length := lastNl_lt hlast
        have hwlen : (rest.takeWhile pyIsSpace).length ≤ rest.length :=
          ( List.takeWhile_prefix pyIsSpace).length_le
        refine ⟨by omega, by simp; omega, ?_⟩
        intro d hd
        have hsplit : j + 2 = (j + 1) + 1 := rfl
        rw [hsplit, List.take_succ_cons] at hd
        rcases List.mem_cons.mp hd with h1 | h2
        · subst h1; decide
        · have heq : rest.take (j + 1) = (rest.takeWhile pyIsSpace).take (j + 1) :=
            take_eq_take_takeWhile (by omega)
          rw [heq] at h2
          exact List.mem_takeWhile_imp (List.mem_of_mem_take h2)
    · rw [blankMatchLen.eq_def] at h
      split at h
      · rename_i heq
        rw [List.cons.injEq] at heq
        exact absurd heq.1 hc
      · exact absurd h (by simp)

theorem sbAux_ne_nil (acc l : List Char) : sbAux acc l ≠ [] := by
  induction acc, l using sbAux.induct with
  | case1 acc => simp [sbAux]
  | case2 acc c rest j hm ih => rw [sbAux, hm]; simp
  | case3 acc c rest hm ih => rw [sbAux, hm]; exact ih

theorem sbAux_words_flatten (acc l : List Char) :
    ((sbAux acc l).map words).flatten = words (acc.reverse ++ l) := by
  induction acc, l using sbAux.induct with
  | case1 acc => simp [sbAux]
  | case2 acc c rest j hm ih =>
    rw [sbAux, hm]
    obtain ⟨h2, hle, hsp⟩ := blankMatchLen_spec hm
    have hdecomp : (c :: rest : List Char) = (c :: rest).take j ++ (c :: rest).drop j :=
      (List.take_append_drop j (c :: rest)).symm
    have hdrop : (c :: rest).drop j = rest.drop (j - 1) := by
      rcases j with _ | j2
      · omega
      · simp
    have htne : (c :: rest).take j ≠ [] := by
      rcases j with _ | j2
      · omega
      · simp [List.take_succ_cons]
    calc ((acc.reverse :: sbAux [] (rest.drop (j - 1))).map words).flatten
        = words acc.reverse ++ ((sbAux [] (rest.drop (j - 1))).map words).flatten := by simp
      _ = words acc.reverse ++ words (rest.drop (j - 1)) := by rw [ih]; rfl
      _ = words (acc.reverse ++ c :: rest) := by
          conv_rhs => rw [hdecomp, ← List.append_assoc]
          rw [words_sep hsp htne, hdrop]
  | case3 acc c rest hm ih =>
    rw [sbAux, hm, ih]
    simp

theorem words_joinNN_splitBlank (x : List Char) :
    words (joinNN (splitBlank x)) = words x := by
  rw [words_joinNN, splitBlank, sbAux_words_flatten]
  rfl

theorem words_flatten_splitBlank (x : List Char) :
    ((splitBlank x).map words).flatten = words x := by
  rw [splitBlank, sbAux_words_flatten]
  rfl

/-! ## Lemmas about the chunker -/

theorem chunkAux_words_flatten (cs : Nat) (ps : List (List Char)) : ∀ cur : List Char,
    cur = [] ∨ (∃ d, cur = d ++ nn) →
    ((chunkAux cs cur ps).map words).flatten = words cur ++ (ps.map words).flatten := by
  induction ps with
  | nil =>
    intro cur _
    rw [chunkAux]
    by_cases hemp : cur.isEmpty = true
    · have hc0 : cur = [] := by simpa using hemp
      subst hc0
      simp [words, wordsAux]
    · simp [hemp, words_pstrip]
  | cons p rest ih =>
    intro cur hcur
    rw [chunkAux]
    have key : words (cur ++ p ++ nn) = words cur ++ words p := by
      rcases hcur with rfl | ⟨d, rfl⟩
      · rw [List.nil_append]
        exact words_append_space nn_all_space p
      · have h1 : (d ++ nn) ++ p ++ nn = d ++ nn ++ (p ++ nn) := by simp
        rw [h1, words_nn d (p ++ nn), words_append_space nn_all_space,
          words_append_space nn_all_space]
    by_cases hfit : cur.length + p.length ≤ cs
    · rw [if_pos hfit, ih (cur ++ p ++ nn) (Or.inr ⟨cur ++ p, rfl⟩), key]
      simp
    · rw [if_neg hfit]
      by_cases hemp : cur.isEmpty = true
      · have hc0 : cur = [] := by simpa using hemp
        subst hc0
        rw [if_pos hemp, ih (p ++ nn) (Or.inr ⟨p, rfl⟩), words_append_space nn_all_space]
        simp [words, wordsAux]
      · rw [if_neg hemp]
        simp only [List.map_cons, List.flatten_cons]
        rw [words_pstrip, ih (p ++ nn) (Or.inr ⟨p, rfl⟩),
          words_append_space nn_all_space]

/-! ## Lemmas used for the concrete chunker scenario -/

theorem blankMatchLen_ne {c : Char} (l : List Char) (hc : c ≠ '\n') :
    blankMatchLen (c :: l) = none := by
  rw [blankMatchLen.eq_def]
  split
  · rename_i heq
    rw [List.cons.injEq] at heq
    exact absurd heq.1 hc
  · rfl

theorem sbAux_no_nl {a : List Char} (ha : ∀ c ∈ a, c ≠ '\n') (acc : List Char) :
    sbAux acc a = [acc.reverse ++ a] := by
  induction a generalizing acc with
  | nil => simp [sbAux]
  | cons c a2 ih =>
    rw [sbAux, blankMatchLen_ne a2 (ha c (by simp)),
      ih (fun d hd => ha d (by simp [hd])) (c :: acc)]
    simp

theorem sbAux_thru {a : List Char} (ha : ∀ c ∈ a, c ≠ '\n') {rest : List Char}
    (hr : rest.takeWhile pyIsSpace = []) (acc : List Char) :
    sbAux acc (a ++ '\n' :: '\n' :: rest) = (acc.reverse ++ a) :: sbAux [] rest := by
  induction a generalizing acc with
  | nil =>
    simp only [List.nil_append]
    have hm : blankMatchLen ('\n' :: '\n' :: rest) = some 2 := by
      simp [blankMatchLen, List.takeWhile_cons, pyIsSpace, hr, lastNl]
    rw [sbAux, hm]
    simp
  | cons c a2 ih =>
    rw [List.cons_append, sbAux,
      blankMatchLen_ne _ (ha c (by simp)),
      ih (fun d hd => ha d (by simp [hd])) (c :: acc)]
    simp

theorem takeWhile_nonspace_nil0 {l : List Char} (hne : l ≠ [])
    (h : ∀ c ∈ l, pyIsSpace c = false) :
    l.takeWhile pyIsSpace = [] := by
  cases l with
  | nil => exact absurd rfl hne
  | cons c l2 =>
    rw [List.takeWhile_cons, h c (by simp)]
    simp

theorem takeWhile_nonspace_nil {l : List Char} (hne : l ≠ [])
    (h : ∀ c ∈ l, pyIsSpace c = false) (x : List Char) :
    (l ++ x).takeWhile pyIsSpace = [] := by
  cases l with
  | nil => exact absurd rfl hne
  | cons c l2 =>
    rw [List.cons_append, List.takeWhile_cons, h c (by simp)]
    simp

theorem dropWhile_nonspace_app {l : List Char} (hne : l ≠ [])
    (h : ∀ c ∈ l, pyIsSpace c = false) (x : List Char) :
    (l ++ x).dropWhile pyIsSpace = l ++ x := by
  cases l with
  | nil => exact absurd rfl hne
  | cons c l2 =>
    rw [List.cons_append, List.dropWhile_cons, h c (by simp)]
    simp

theorem dropWhile_nonspace {l : List Char} (hne : l ≠ [])
    (h : ∀ c ∈ l, pyIsSpace c = false) :
    l.dropWhile pyIsSpace = l := by
  cases l with
  | nil => exact absurd rfl hne
  | cons c l2 =>
    rw [List.dropWhile_cons, h c (by simp)]
    simp

theorem pstrip_nonspace_nn {l : List Char} (h : ∀ c ∈ l, pyIsSpace c = false) :
    pstrip (l ++ nn) = l := by
  cases hl : l with
  | nil => decide
  | cons c l2 =>
    rw [← hl]
    have hne : l ≠ [] := by rw [hl]; exact List.cons_ne_nil c l2
    rw [pstrip, dropWhile_nonspace_app hne h nn, List.reverse_append,
      show nn.reverse = ['\n', '\n'] from rfl]
    have hrev : ('\n' :: '\n' :: l.reverse).dropWhile pyIsSpace = l.reverse := by
      rw [List.dropWhile_cons]
      simp only [show pyIsSpace '\n' = true from rfl, if_true]
      rw [List.dropWhile_cons]
      simp only [show pyIsSpace '\n' = true from rfl, if_true]
      exact dropWhile_nonspace (by simp [hne]) (fun c hc => h c (List.mem_reverse.mp hc))
    show (List.dropWhile pyIsSpace (['\n', '\n'] ++ l.reverse)).reverse = l
    rw [show (['\n', '\n'] ++ l.reverse : List Char) = '\n' :: '\n' :: l.reverse from rfl,
      hrev, List.reverse_reverse]

theorem para4000_nonspace : ∀ c ∈ para4000, pyIsSpace c = false := by
  intro c hc
  rw [para4000] at hc
  rw [List.eq_of_mem_replicate hc]
  decide

theorem para4000_no_nl : ∀ c ∈ para4000, c ≠ '\n' := by
  intro c hc
  rw [para4000] at hc
  rw [List.eq_of_mem_replicate hc]
  decide

theorem para4000_ne_nil : para4000 ≠ [] := by
  intro h
  have h2 := congrArg List.length h
  rw [para4000, List.length_replicate] at h2
  exact absurd h2 (by decide)

theorem para4000_length : para4000.length = 4000 := by
  rw [para4000, List.length_replicate]

theorem splitBlank_exampleBody : splitBlank exampleBody = [para4000, para4000, para4000] := by
  have h1 : exampleBody
      = para4000 ++ '\n' :: '\n' :: (para4000 ++ '\n' :: '\n' :: para4000) := by
    simp only [exampleBody, nn, List.append_assoc, List.cons_append, List.nil_append]
  rw [splitBlank, h1,
    sbAux_thru para4000_no_nl
      (takeWhile_nonspace_nil para4000_ne_nil para4000_nonspace _) [],
    sbAux_thru para4000_no_nl
      (takeWhile_nonspace_nil0 para4000_ne_nil para4000_nonspace) [],
    sbAux_no_nl para4000_no_nl []]
  simp

theorem pstrip_para_nn : pstrip (para4000 ++ nn) = para4000 :=
  pstrip_nonspace_nn para4000_nonspace

theorem paraNN_not_empty : ((para4000 ++ nn).isEmpty = true) = False := by
  simp [List.isEmpty_iff, nn]

theorem chunkBody_exampleBody :
    chunkBody 5000 exampleBody = [para4000, para4000, para4000] := by
  have hln : (para4000 ++ nn).length = 4002 := by
    rw [List.length_append, para4000_length]
    rfl
  have hnotfit : ¬((para4000 ++ nn).length + para4000.length ≤ 5000) := by
    rw [hln, para4000_length]
    omega
  have hnotemp : ¬(para4000 ++ nn).isEmpty = true := by
    rw [paraNN_not_empty]
    exact id
  rw [chunkBody, splitBlank_exampleBody, chunkAux,
    if_pos (by rw [List.length_nil, para4000_length]; omega :
      ([] : List Char).length + para4000.length ≤ 5000)]
  rw [show ([] : List Char) ++ para4000 ++ nn = para4000 ++ nn from by
    rw [List.nil_append]]
  rw [chunkAux, if_neg hnotfit, if_neg hnotemp]
  rw [chunkAux, if_neg hnotfit, if_neg hnotemp]
  rw [chunkAux, if_neg hnotemp, pstrip_para_nn]

example : words "  ab  cd ".data = ["ab".data, "cd".data] := by decide
example : hasSub "ab".data "xaby".data = true := by decide
example : splitSep "a\n\n\nb".data = ["a".data, "\nb".data] := by decide
example : splitChar '\n' "a\nb\n".data = ["a".data, "b".data, [] ] := by decide
example : countSub "aa".data "aaaa  aa".data = 3 := by decide
example : splitBlank "a\n \n\nb".data = ["a".data, "b".data] := by
  simp [splitBlank, sbAux, blankMatchLen, lastNl, pyIsSpace]
example : ssort (fun a b : Nat × Nat => decide (b.2 ≤ a.2)) [(1, 5), (2, 7), (3, 5)]
    = [(2, 7), (1, 5), (3, 5)] := by decide
/-! ## Claim C5: round trip of chunking -/

/-- C5: for every body text with non-empty paragraphs, joining the chunker
output in position order with blank lines and re-splitting on blank lines
reproduces a text equivalent to the original body up to whitespace
normalization; equivalence up to whitespace normalization is formalized as
equality of the whitespace-separated token sequences. -/
theorem chunk_roundtrip_words (chunkSize : Nat) (body : List Char)
    (h : ∀ p ∈ splitBlank body, p ≠ []) :
    words (joinNN (splitBlank (joinNN (chunkBody chunkSize body)))) = words body := by
  rw [words_joinNN_splitBlank, words_joinNN, chunkBody,
    chunkAux_words_flatten chunkSize (splitBlank body) [] (Or.inl rfl),
    words_flatten_splitBlank]
  rfl

/-- Witness for C5 at a concrete two-paragraph body. -/
theorem chunk_roundtrip_words_witness :
    (∀ p ∈ splitBlank "ab\n\ncd".data, p ≠ []) ∧
      words (joinNN (splitBlank (joinNN (chunkBody 5000 "ab\n\ncd".data))))
        = words "ab\n\ncd".data := by
  have hsp : splitBlank "ab\n\ncd".data = ["ab".data, "cd".data] := by
    simp [splitBlank, sbAux, blankMatchLen, lastNl, pyIsSpace]
  refine ⟨?_, chunk_roundtrip_words 5000 _ ?_⟩ <;> rw [hsp] <;> decide

/-! ## Claim C4: the three-paragraph example scenario -/

/-- C4 counterexample: on a body of exactly three paragraphs of 4000
characters each with target size 5000, the chunker yields three chunks of
4000 characters, not the two chunks of 4000 and 8000 characters stated by the
claim. -/
theorem chunker_scenario_counterexample :
    (chunkBody 5000 exampleBody).map List.length = [4000, 4000, 4000]
    ∧ (chunkBody 5000 exampleBody).length ≠ 2 := by
  rw [chunkBody_exampleBody]
  constructor
  · simp [para4000_length]
  · simp

/-- C4 amended: for a body of exactly three paragraphs of 4000 characters
each and target size 5000, the chunker yields exactly three chunks, each one
paragraph of 4000 characters, because a sealed buffer always restarts from the
paragraph that did not fit and 4000 plus 4002 exceeds 5000 at every step. -/
theorem chunker_scenario_amended :
    chunkBody 5000 exampleBody = [para4000, para4000, para4000]
    ∧ (chunkBody 5000 exampleBody).length = 3
    ∧ ∀ c ∈ chunkBody 5000 exampleBody, c.length = 4000 := by
  refine ⟨chunkBody_exampleBody, ?_, ?_⟩
  · rw [chunkBody_exampleBody]
    rfl
  · rw [chunkBody_exampleBody]
    intro c hc
    simp at hc
    rcases hc with rfl | rfl | rfl <;> exact para4000_length

/-! ## Lemmas about the stable sort -/

theorem mem_sinsert {le : α → α → Bool} {x y : α} {l : List α} :
    y ∈ sinsert le x l ↔ y = x ∨ y ∈ l := by
  induction l with
  | nil => simp [sinsert]
  | cons z zs ih =>
    rw [sinsert]
    by_cases h : le x z = true
    · simp [h]
    · simp [h, ih]
      tauto

theorem mem_ssort {le : α → α → Bool} {y : α} {l : List α} :
    y ∈ ssort le l ↔ y ∈ l := by
  induction l with
  | nil => simp [ssort]
  | cons x xs ih =>
    rw [ssort, mem_sinsert]
    simp [ih]

theorem pairwise_sinsert {le : α → α → Bool}
    (htot : ∀ a b, le a b = true ∨ le b a = true)
    (htr : ∀ a b c, le a b = true → le b c = true → le a c = true)
    (x : α) {l : List α} (h : l.Pairwise (fun a b => le a b = true)) :
    (sinsert le x l).Pairwise (fun a b => le a b = true) := by
  induction l with
  | nil => simp [sinsert]
  | cons z zs ih =>
    rw [sinsert]
    rcases List.pairwise_cons.mp h with ⟨hz, hzs⟩
    by_cases hle : le x z = true
    · rw [if_pos hle]
      refine List.pairwise_cons.mpr ⟨?_, h⟩
      intro b hb
      rcases List.mem_cons.mp hb with rfl | hb2
      · exact hle
      · exact htr x z b hle (hz b hb2)
    · rw [if_neg hle]
      refine List.pairwise_cons.mpr ⟨?_, ih hzs⟩
      intro b hb
      rcases mem_sinsert.mp hb with rfl | hb2
      · rcases htot b z with h1 | h1
        · exact absurd h1 hle
        · exact h1
      · exact hz b hb2

theorem pairwise_ssort {le : α → α → Bool}
    (htot : ∀ a b, le a b = true ∨ le b a = true)
    (htr : ∀ a b c, le a b = true → le b c = true → le a c = true)
    (l : List α) : (ssort le l).Pairwise (fun a b => le a b = true) := by
  induction l with
  | nil => simp [ssort]
  | cons x xs ih =>
    rw [ssort]
    exact pairwise_sinsert htot htr x ih

/-! ## Claim C10: per-document section order -/

/-- C10: the per-document entries of the titles, chapters, headings and
content sections of the multi-document context all follow the stable sort of
the document records by ascending recorded length, so within every section
the contributing documents appear shortest first. -/
theorem doc_sections_sorted (docs : List DocCtx) :
    titlesSection docs = (sortDocsByLength docs).map (fun d => d.title)
    ∧ contentSection docs
        = (sortDocsByLength docs).map (fun d => contentHeader d ++ '\n' :: d.content ++ ['\n'])
    ∧ ((sortDocsByLength docs).map (fun d => d.length)).Sorted (· ≤ ·)
    ∧ ((chaptersDocs docs).map (fun d => d.length)).Sorted (· ≤ ·)
    ∧ ((headingsDocs docs).map (fun d => d.length)).Sorted (· ≤ ·) := by
  have hp : (sortDocsByLength docs).Pairwise (fun a b => a.length ≤ b.length) := by
    have h0 := @pairwise_ssort DocCtx
      (fun a b : DocCtx => decide (a.length ≤ b.length))
      (fun a b => by
        rcases Nat.le_total a.length b.length with h | h
        · exact Or.inl (by simpa using h)
        · exact Or.inr (by simpa using h))
      (fun a b c h1 h2 => by
        simp only [decide_eq_true_eq] at h1 h2 ⊢
        omega)
      docs
    exact h0.imp (by simp)
  refine ⟨rfl, rfl, ?_, ?_, ?_⟩
  · exact List.pairwise_map.mpr hp
  · exact List.pairwise_map.mpr ((hp.filter _))
  · exact List.pairwise_map.mpr ((hp.filter _))

/-! ## Claim C8: the embedding capability flag -/

theorem computeEmbeddings_disabled (st : EmbState) (h : st.useEmbeddings = false)
    (load : LoadOutcome) (enc : EncodeOutcome) :
    computeEmbeddings st load enc = (false, st) := by
  simp [computeEmbeddings, h]

theorem runComputeSeq_disabled (seq : List (LoadOutcome × EncodeOutcome))
    (st : EmbState) (h : st.useEmbeddings = false) :
    runComputeSeq st seq = (List.replicate seq.length false, st) := by
  induction seq with
  | nil => rfl
  | cons o rest ih =>
    simp [runComputeSeq, computeEmbeddings_disabled st h o.1 o.2, ih,
      List.replicate_succ]

/-- C8 counterexample: an exception during the encode call leaves the global
capability flag enabled, and the next retrieval request with an embedding file
present takes the embedding path again and can obtain embeddings. -/
theorem embedding_flag_counterexample :
    computeEmbeddings ⟨true, false⟩ LoadOutcome.ok EncodeOutcome.fail
      = (false, ⟨true, true⟩)
    ∧ (computeEmbeddings ⟨true, false⟩ LoadOutcome.ok EncodeOutcome.fail).2.useEmbeddings
        ≠ false
    ∧ usesEmbeddingsForQuery
        (computeEmbeddings ⟨true, false⟩ LoadOutcome.ok EncodeOutcome.fail).2 true = true
    ∧ (computeEmbeddings
          (computeEmbeddings ⟨true, false⟩ LoadOutcome.ok EncodeOutcome.fail).2
          LoadOutcome.ok EncodeOutcome.ok).1 = true := by
  decide

/-- C8 amended: only a failure while loading the embedding model clears the
capability flag; once cleared it stays cleared for every later computation and
every later retrieval takes the keyword path, whereas an encode exception with
a loaded model leaves the state unchanged and merely returns no embeddings. -/
theorem embedding_flag_amended (st : EmbState) (enc : EncodeOutcome)
    (seq : List (LoadOutcome × EncodeOutcome)) :
    (st.useEmbeddings = true → st.modelLoaded = false →
      ((computeEmbeddings st LoadOutcome.fail enc).1 = false
        ∧ (computeEmbeddings st LoadOutcome.fail enc).2.useEmbeddings = false
        ∧ runComputeSeq (computeEmbeddings st LoadOutcome.fail enc).2 seq
            = (List.replicate seq.length false,
               (computeEmbeddings st LoadOutcome.fail enc).2)
        ∧ ∀ b, usesEmbeddingsForQuery (computeEmbeddings st LoadOutcome.fail enc).2 b
            = false))
    ∧ (∀ load, st.modelLoaded = true → (computeEmbeddings st load enc).2 = st) := by
  constructor
  · intro hu hm
    have hstep : computeEmbeddings st LoadOutcome.fail enc
        = (false, ⟨false, st.modelLoaded⟩) := by
      simp [computeEmbeddings, hu, getEmbeddingModel, hm]
    rw [hstep]
    exact ⟨rfl, rfl, runComputeSeq_disabled seq _ rfl,
      fun b => by simp [usesEmbeddingsForQuery]⟩
  · intro load hm
    by_cases hu : st.useEmbeddings <;> cases enc <;>
      simp [computeEmbeddings, getEmbeddingModel, hm, hu]

/-- Witness for C8 amended at a fresh state with a failing load. -/
theorem embedding_flag_amended_witness :
    ((⟨true, false⟩ : EmbState).useEmbeddings = true
      ∧ (⟨true, false⟩ : EmbState).modelLoaded = false)
    ∧ ((computeEmbeddings ⟨true, false⟩ LoadOutcome.fail EncodeOutcome.ok).1 = false
      ∧ (computeEmbeddings ⟨true, false⟩ LoadOutcome.fail EncodeOutcome.ok).2.useEmbeddings
          = false
      ∧ runComputeSeq (computeEmbeddings ⟨true, false⟩ LoadOutcome.fail EncodeOutcome.ok).2
          [(LoadOutcome.ok, EncodeOutcome.ok)]
          = (List.replicate 1 false,
             (computeEmbeddings ⟨true, false⟩ LoadOutcome.fail EncodeOutcome.ok).2)
      ∧ ∀ b, usesEmbeddingsForQuery
          (computeEmbeddings ⟨true, false⟩ LoadOutcome.fail EncodeOutcome.ok).2 b = false) :=
  ⟨⟨rfl, rfl⟩,
   (embedding_flag_amended ⟨true, false⟩ EncodeOutcome.ok
      [(LoadOutcome.ok, EncodeOutcome.ok)]).1 rfl rfl⟩

/-! ## Claim C7: zero characters from the primary parser -/

/-- C7 counterexample: on a one-page document whose only line is classified as
a heading, the primary parse yields zero content characters, the single
alternative extractor yields nothing, and the extractor returns the structured
result with empty content instead of declaring an error. -/
theorem pdf_empty_counterexample :
    extractTextFromPdf "doc.pdf".data ["INTRODUCTION".data] none
      = PdfResult.ok "doc.pdf".data [] "INTRODUCTION".data [] 0
    ∧ (extractTextFromPdf "doc.pdf".data ["INTRODUCTION".data] none).isErr = false := by
  decide

/-- C7 amended: when the page loop yields zero content characters the
extractor tries the single alternative extractor; if the alternative yields no
text the original structured result with empty content is returned unchanged
(no error value), and if it yields text that text replaces the content. -/
theorem pdf_empty_amended (title : List Char) (pages : List (List Char))
    (alt : Option (List Char)) (h : (extractPages pages).totalChars = 0) :
    ((alt = none ∨ alt = some []) →
      extractTextFromPdf title pages alt
        = PdfResult.ok title (joinNl (extractPages pages).chapters)
            (joinNl (extractPages pages).headings) (joinNN (extractPages pages).blocks) 0
      ∧ (extractTextFromPdf title pages alt).isErr = false)
    ∧ (∀ t, alt = some t → t.isEmpty = false →
        extractTextFromPdf title pages alt = PdfResult.ok title [] [] t t.length) := by
  constructor
  · rintro (rfl | rfl)
    · constructor
      · simp [extractTextFromPdf, h]
      · simp [extractTextFromPdf, h, PdfResult.isErr]
    · constructor
      · simp [extractTextFromPdf, h]
      · simp [extractTextFromPdf, h, PdfResult.isErr]
  · rintro t rfl hne
    simp [extractTextFromPdf, h, hne]

/-- Witness for C7 amended at the concrete one-heading page. -/
theorem pdf_empty_amended_witness :
    (extractPages ["INTRODUCTION".data]).totalChars = 0
    ∧ extractTextFromPdf "doc.pdf".data ["INTRODUCTION".data] none
        = PdfResult.ok "doc.pdf".data (joinNl (extractPages ["INTRODUCTION".data]).chapters)
            (joinNl (extractPages ["INTRODUCTION".data]).headings)
            (joinNN (extractPages ["INTRODUCTION".data]).blocks) 0
    ∧ (extractTextFromPdf "doc.pdf".data ["INTRODUCTION".data] none).isErr = false :=
  ⟨by decide, ((pdf_empty_amended _ _ _ (by decide)).1 (Or.inl rfl)).1,
   ((pdf_empty_amended _ _ _ (by decide)).1 (Or.inl rfl)).2⟩

/-! ## Claim C1: the context character budget -/

/-- C1 amended: the trimmed context never exceeds the budget plus the length
of the fixed truncation notice, and whenever the context exceeds the budget
the result is the plain character slice at the budget followed by the notice;
the slice position is not adjusted and may fall inside a section marker. -/
theorem context_trim_amended (maxLen : Nat) (ctx : List Char) :
    (maxContextTrim maxLen ctx).length ≤ maxLen + truncationNotice.length
    ∧ (maxLen < ctx.length →
        maxContextTrim maxLen ctx = ctx.take maxLen ++ truncationNotice) := by
  constructor
  · rw [maxContextTrim]
    by_cases h : maxLen < ctx.length
    · rw [if_pos h, List.length_append, List.length_take]
      omega
    · rw [if_neg h]
      omega
  · intro h
    rw [maxContextTrim, if_pos h]

/-- Witness for C1 amended at a concrete over-budget context. -/
theorem context_trim_amended_witness :
    (maxContextTrim 2 "abcdef".data).length ≤ 2 + truncationNotice.length
    ∧ 2 < "abcdef".data.length
    ∧ maxContextTrim 2 "abcdef".data = "abcdef".data.take 2 ++ truncationNotice :=
  ⟨(context_trim_amended 2 "abcdef".data).1, by decide,
   (context_trim_amended 2 "abcdef".data).2 (by decide)⟩

/-- C1 counterexample: with budget 35 on the assembled context for two
sections, the slice point falls four characters into the second section
marker, so the truncation cuts mid-marker, against the claim. -/
theorem context_trim_counterexample :
    maxContextTrim 35 (assembleFiltered ["XX".data, "YY".data])
      = (assembleFiltered ["XX".data, "YY".data]).take 35 ++ truncationNotice
    ∧ (assembleFiltered ["XX".data, "YY".data]).take 35
        = sectionMarker 1 ++ "XX".data ++ nn ++ (sectionMarker 2).take 4
    ∧ (assembleFiltered ["XX".data, "YY".data]).drop 35
        = (sectionMarker 2).drop 4 ++ "YY".data ++ filterNote
    ∧ (sectionMarker 2).take 4 ≠ []
    ∧ (sectionMarker 2).take 4 ≠ sectionMarker 2 := by
  decide

/-! ## Claim C2: hybrid score fusion -/

theorem kw_scores_ccc :
    scoreChunksByKeywords ["ccc".data, "ddd".data] "ccc".data = [1, 0] := by
  decide

/-- C2 evaluation at the failing input: the chunk with similarity one and
keyword score zero receives the hybrid score of seventy-three hundredths,
because after sorting by similarity it is paired with the keyword score of the
other chunk, while the same-chunk formula of the claim yields seven tenths. -/
theorem hybrid_misalignment :
    hybridScoredChunks ["ccc".data, "ddd".data] [0, 1] "ccc".data
      = [("ddd".data, 73 / 100), ("ccc".data, 0)]
    ∧ scoreChunksByKeywords ["ccc".data, "ddd".data] "ccc".data = [1, 0]
    ∧ (1 : ℚ) * (7 / 10) + (((0 : Nat) : ℚ) / 10) * (3 / 10) = 7 / 10
    ∧ ((73 : ℚ) / 100) ≠ 7 / 10 := by
  refine ⟨?_, kw_scores_ccc, by norm_num, by norm_num⟩
  have k1 : keywordScore "ccc".data "ccc".data = 1 := by decide
  have k2 : keywordScore "ccc".data "ddd".data = 0 := by decide
  simp only [hybridScoredChunks]
  norm_num [sortByQScoreDesc, ssort, sinsert, scoreChunksByKeywords, k1, k2]

/-! ## Claim C3: first-chunk inclusion -/

theorem seg_trans {a b c : List Char} (h1 : a <:+: b) (h2 : b <:+: c) : a <:+: c := by
  obtain ⟨s1, t1, rfl⟩ := h1
  obtain ⟨s2, t2, rfl⟩ := h2
  exact ⟨s2 ++ s1, t1 ++ t2, by simp⟩

theorem seg_app_right {x l : List Char} (h : x <:+: l) (s : List Char) : x <:+: l ++ s := by
  obtain ⟨a, b, rfl⟩ := h
  exact ⟨a, b ++ s, by simp⟩

theorem seg_app_left {x l : List Char} (h : x <:+: l) (s : List Char) : x <:+: s ++ l := by
  obtain ⟨a, b, rfl⟩ := h
  exact ⟨s ++ a, b, by simp⟩

theorem mem_wrapSections {x : List Char} {tops : List (List Char)} (hx : x ∈ tops) :
    ∀ i : Nat, ∃ w ∈ wrapSections i tops, x <:+: w := by
  induction tops with
  | nil => simp at hx
  | cons c rest ih =>
    intro i
    rcases List.mem_cons.mp hx with rfl | h2
    · exact ⟨sectionMarker i ++ x, by simp [wrapSections], ⟨sectionMarker i, [], by simp⟩⟩
    · obtain ⟨w, hw, hxw⟩ := ih h2 (i + 1)
      exact ⟨w, by simp [wrapSections, hw], hxw⟩

theorem mem_joinNN_seg {w : List Char} {L : List (List Char)} (h : w ∈ L) :
    w <:+: joinNN L := by
  induction L with
  | nil => simp at h
  | cons a rest ih =>
    rcases List.mem_cons.mp h with rfl | h2
    · cases rest with
      | nil => rw [joinNN_single]
      | cons b r2 => rw [joinNN_cons₂]; exact ⟨[], nn ++ joinNN (b :: r2), by simp⟩
    · cases rest with
      | nil => simp at h2
      | cons b r2 =>
        rw [joinNN_cons₂]
        exact seg_app_left (ih h2) (a ++ nn)

theorem seg_assembleFiltered {x : List Char} {tops : List (List Char)} (hx : x ∈ tops) :
    x <:+: assembleFiltered tops := by
  obtain ⟨w, hw, hxw⟩ := mem_wrapSections hx 1
  exact seg_app_right (seg_trans hxw (mem_joinNN_seg hw)) filterNote

theorem head_mem_selectTopChunks (chunks : List (List Char)) (query : List Char)
    {maxChunks : Nat} (h0 : chunks ≠ []) (h1 : 1 ≤ maxChunks) :
    chunks.head h0 ∈ selectTopChunks chunks query maxChunks := by
  rcases chunks with _ | ⟨c0, rest⟩
  · exact absurd rfl h0
  · simp only [List.head_cons, selectTopChunks]
    by_cases hmem : c0 ∈ ((sortByScoreDesc
        ((c0 :: rest).map (fun c => (c, keywordScore query c)))).take maxChunks).map
        Prod.fst
    · rw [if_pos hmem]
      exact hmem
    · rw [if_neg hmem]
      rcases maxChunks with _ | m
      · omega
      · rw [List.take_succ_cons]
        simp

/-- C3: for every non-empty chunk sequence and every query, the assembled
query-filtered context contains the content of the chunk at position zero,
even when it did not rank among the top maxChunks by score, for any positive
maxChunks. -/
theorem first_chunk_in_assembly (chunks : List (List Char)) (query : List Char)
    (maxChunks : Nat) (h0 : chunks ≠ []) (h1 : 1 ≤ maxChunks) :
    chunks.head h0 <:+: assembleFiltered (selectTopChunks chunks query maxChunks) :=
  seg_assembleFiltered (head_mem_selectTopChunks chunks query h0 h1)

/-- Witness for C3 at a concrete two-chunk list. -/
theorem first_chunk_in_assembly_witness :
    ((["ab".data, "cd".data] : List (List Char)) ≠ [] ∧ 1 ≤ 5)
    ∧ "ab".data <:+: assembleFiltered (selectTopChunks ["ab".data, "cd".data] "zz".data 5) :=
  ⟨⟨by decide, by decide⟩,
   first_chunk_in_assembly ["ab".data, "cd".data] "zz".data 5 (by decide) (by decide)⟩

/-! ## Claim C9: keyword score monotonicity -/

theorem isPrefixOf_append_right {n l : List Char} (s : List Char)
    (h : n.isPrefixOf l = true) : n.isPrefixOf (l ++ s) = true := by
  rw [ List.isPrefixOf_iff_prefix] at h ⊢
  obtain ⟨t, rfl⟩ := h
  exact ⟨t ++ s, by simp⟩

theorem countSubAux_short {n : List Char} : ∀ {l : List Char} {k : Nat},
    l.length < n.length → countSubAux n k l = 0 := by
  intro l
  induction l with
  | nil => intro k _; cases k <;> rfl
  | cons c rest ih =>
    intro k h
    cases k with
    | succ k2 =>
      rw [countSubAux]
      exact ih (by simp at h ⊢; omega)
    | zero =>
      rw [countSubAux]
      have hp : ¬ n.isPrefixOf (c :: rest) = true := by
        intro hc
        have := ( List.isPrefixOf_iff_prefix.mp hc).length_le
        simp at this h
        omega
      rw [if_neg hp]
      exact ih (by simp at h ⊢; omega)

theorem countSubAux_append_le (n s : List Char) (hn : n ≠ []) :
    ∀ (l : List Char) (k : Nat), countSubAux n k l ≤ countSubAux n k (l ++ s) := by
  intro l
  induction l with
  | nil => intro k; cases k <;> simp [countSubAux]
  | cons c rest ih =>
    intro k
    rw [List.cons_append]
    cases k with
    | succ k2 =>
      rw [countSubAux, countSubAux]
      exact ih k2
    | zero =>
      by_cases hp : n.isPrefixOf (c :: rest) = true
      · have hp2 : n.isPrefixOf (c :: (rest ++ s)) = true := by
          have := isPrefixOf_append_right s hp
          simpa using this
        rw [countSubAux, countSubAux, if_pos hp, if_pos hp2]
        exact Nat.add_le_add_left (ih (n.length - 1)) 1
      · by_cases hp2 : n.isPrefixOf (c :: (rest ++ s)) = true
        · have hlen : (c :: rest).length < n.length := by
            by_contra hle
            push_neg at hle
            obtain ⟨t, ht⟩ := List.isPrefixOf_iff_prefix.mp hp2
            have h1 : n = (c :: (rest ++ s)).take n.length := by
              rw [← ht]
              simp
            have htake : n = (c :: rest).take n.length := by
              conv_lhs => rw [h1]
              rw [show (c :: (rest ++ s) : List Char) = (c :: rest) ++ s from by simp,
                List.take_append_of_le_length hle]
            have hpre : n <+: (c :: rest) := by
              nth_rewrite 1 [htake]
              exact List.take_prefix _ _
            exact hp ( List.isPrefixOf_iff_prefix.mpr hpre)
          rw [countSubAux_short hlen]
          exact Nat.zero_le _
        · rw [countSubAux, countSubAux, if_neg hp, if_neg hp2]
          exact ih 0

theorem countSub_append_le (n : List Char) (hn : n ≠ []) (l s : List Char) :
    countSub n l ≤ countSub n (l ++ s) :=
  countSubAux_append_le n s hn l 0

theorem hasSub_iff {n l : List Char} : hasSub n l = true ↔ n <:+: l := by
  induction l with
  | nil =>
    rw [hasSub]
    simp only [List.isEmpty_iff]
    constructor
    · rintro rfl
      exact ⟨[], [], rfl⟩
    · rintro ⟨s, t, h⟩
      rcases List.append_eq_nil.mp h with ⟨h1, h2⟩
      exact (List.append_eq_nil.mp h1).2
  | cons c rest ih =>
    rw [hasSub]
    simp only [Bool.or_eq_true, List.isPrefixOf_iff_prefix, ih]
    constructor
    · rintro (⟨t, ht⟩ | ⟨s, t, ht⟩)
      · exact ⟨[], t, by simpa using ht⟩
      · exact ⟨c :: s, t, by simp only [List.cons_append]; rw [ht]⟩
    · rintro ⟨s, t, hst⟩
      cases s with
      | nil => exact Or.inl ⟨t, by simpa using hst⟩
      | cons c2 s2 =>
        have h3 : c2 :: (s2 ++ n ++ t) = c :: rest := by simpa using hst
        injection h3 with h4 h5
        exact Or.inr ⟨s2, t, h5⟩

theorem hasSub_append {n l : List Char} (s : List Char) (h : hasSub n l = true) :
    hasSub n (l ++ s) = true := by
  rw [hasSub_iff] at h ⊢
  exact seg_app_right h s

theorem consHead_ne_nil (c : Char) (ps : List (List Char)) : consHead c ps ≠ [] := by
  cases ps <;> simp [consHead]

theorem splitSep_ne_nil (l : List Char) : splitSep l ≠ [] := by
  induction l using splitSep.induct with
  | case1 => simp [splitSep]
  | case2 rest ih => simp [splitSep]
  | case3 c rest h ih =>
    rw [splitSep.eq_def]
    split
    · simp
    · simp
    · exact consHead_ne_nil _ _

theorem splitSep_cons_ne {c : Char} {rest : List Char}
    (h : c ≠ '\n' ∨ rest.head? ≠ some '\n') :
    splitSep (c :: rest) = consHead c (splitSep rest) := by
  rw [splitSep.eq_def]
  split
  · rename_i heq
    exact absurd heq (by simp)
  · rename_i r2 heq
    rw [List.cons.injEq] at heq
    rcases h with h | h
    · exact absurd heq.1 h
    · rw [heq.2] at h
      simp at h
  · rename_i c2 rest2 hno heq
    injection heq with h1 h2
    subst h1
    subst h2
    rfl

theorem splitSep_no_nl {s : List Char} (hs : ∀ c ∈ s, c ≠ '\n') : splitSep s = [s] := by
  induction s with
  | nil => rfl
  | cons c rest ih =>
    rw [splitSep_cons_ne (Or.inl (hs c (by simp))),
      ih (fun d hd => hs d (by simp [hd]))]
    rfl

theorem modLast_cons₂ (s p q : List Char) (r : List (List Char)) :
    modLast s (p :: q :: r) = p :: modLast s (q :: r) := rfl

theorem consHead_modLast (c : Char) (s : List Char) {L : List (List Char)} (h : L ≠ []) :
    consHead c (modLast s L) = modLast s (consHead c L) := by
  cases L with
  | nil => exact absurd rfl h
  | cons p ps =>
    cases ps with
    | nil => rfl
    | cons q r => rfl

theorem splitSep_append {s : List Char} (hs : ∀ c ∈ s, c ≠ '\n') :
    ∀ l : List Char, splitSep (l ++ s) = modLast s (splitSep l) := by
  intro l
  induction l using splitSep.induct with
  | case1 =>
    rw [List.nil_append, splitSep_no_nl hs]
    rfl
  | case2 rest ih =>
    rw [List.cons_append, List.cons_append]
    rw [show splitSep ('\n' :: '\n' :: (rest ++ s)) = [] :: splitSep (rest ++ s) from rfl,
      show splitSep ('\n' :: '\n' :: rest) = [] :: splitSep rest from rfl, ih]
    cases hsp : splitSep rest with
    | nil => exact absurd hsp (splitSep_ne_nil rest)
    | cons p ps => rw [modLast_cons₂]
  | case3 c rest h ih =>
    have hcond : c ≠ '\n' ∨ rest.head? ≠ some '\n' := by
      by_cases hc : c = '\n'
      · subst hc
        right
        cases rest with
        | nil => simp
        | cons d r2 =>
          intro hd
          simp at hd
          exact h r2 rfl (by rw [hd])
      · exact Or.inl hc
    have hcond2 : c ≠ '\n' ∨ (rest ++ s).head? ≠ some '\n' := by
      rcases hcond with hc | hr
      · exact Or.inl hc
      · cases rest with
        | nil =>
          right
          cases hss : s with
          | nil => simp
          | cons e es =>
            intro hd
            simp [hss] at hd
            exact hs e (by simp [hss]) hd
        | cons d r2 =>
          right
          simpa using hr
    rw [List.cons_append, splitSep_cons_ne hcond2, splitSep_cons_ne hcond, ih,
      consHead_modLast c s (splitSep_ne_nil rest)]

theorem paraBonus_le {a b : Nat} (h : a ≤ b) :
    (if 1 < a then 2 * a else 0) ≤ (if 1 < b then 2 * b else 0) := by
  by_cases h1 : 1 < a
  · rw [if_pos h1, if_pos (by omega)]
    omega
  · rw [if_neg h1]
    exact Nat.zero_le _

theorem paraCount_append_le (terms : List (List Char)) (p u : List Char) :
    terms.countP (fun t => 2 < t.length && hasSub t (pyLower p))
      ≤ terms.countP (fun t => 2 < t.length && hasSub t (pyLower (p ++ u))) := by
  apply List.countP_mono_left
  intro t _ h
  simp only [Bool.and_eq_true] at h ⊢
  refine ⟨h.1, ?_⟩
  rw [show pyLower (p ++ u) = pyLower p ++ pyLower u from by simp [pyLower]]
  exact hasSub_append (pyLower u) h.2

theorem paraScore_append_le (terms : List (List Char)) (c : List Char) {s : List Char}
    (hs : ∀ ch ∈ s, ch ≠ '\n') :
    paraScore terms c ≤ paraScore terms (c ++ s) := by
  rw [paraScore, paraScore, splitSep_append hs c]
  generalize splitSep c = L
  induction L with
  | nil => simp [modLast]
  | cons p ps ih =>
    cases ps with
    | nil =>
      simp only [modLast, List.map_cons, List.map_nil, List.sum_cons, List.sum_nil]
      exact Nat.add_le_add (paraBonus_le (paraCount_append_le terms p s)) (Nat.le_refl 0)
    | cons q r =>
      rw [modLast_cons₂]
      simp only [List.map_cons, List.sum_cons] at ih ⊢
      exact Nat.add_le_add (Nat.le_refl _) ih

theorem freqScore_append_le (terms : List (List Char)) (cl s : List Char) :
    freqScore terms cl ≤ freqScore terms (cl ++ s) := by
  apply List.sum_le_sum
  intro t _
  by_cases h : 2 < t.length
  · rw [if_pos h, if_pos h]
    exact countSub_append_le t (by intro h0; rw [h0] at h; simp at h) cl s
  · rw [if_neg h, if_neg h]

theorem adjScore_append_le (terms : List (List Char)) (cl s : List Char) :
    adjScore terms cl ≤ adjScore terms (cl ++ s) := by
  apply List.sum_le_sum
  intro p _
  by_cases h : 2 < p.1.length ∧ 2 < p.2.length ∧ hasSub (p.1 ++ ' ' :: p.2) cl = true
  · rw [if_pos h, if_pos ⟨h.1, h.2.1, hasSub_append s h.2.2⟩]
  · rw [if_neg h]
    exact Nat.zero_le _

theorem keywordScore_append_le (query c : List Char) {s : List Char}
    (hs : ∀ ch ∈ s, ch ≠ '\n') :
    keywordScore query c ≤ keywordScore query (c ++ s) := by
  simp only [keywordScore]
  rw [show pyLower (c ++ s) = pyLower c ++ pyLower s from by simp [pyLower]]
  exact Nat.add_le_add
    (Nat.add_le_add (freqScore_append_le _ _ _) (adjScore_append_le _ _ _))
    (paraScore_append_le _ _ hs)

theorem wordsAux_mem_nonspace {l : List Char} : ∀ {cur : List Char},
    (∀ ch ∈ cur, pyIsSpace ch = false) →
    ∀ t ∈ wordsAux cur l, ∀ ch ∈ t, pyIsSpace ch = false := by
  induction l with
  | nil =>
    intro cur hcur t ht
    rw [wordsAux] at ht
    by_cases hc : cur.isEmpty = true
    · rw [if_pos hc] at ht
      simp at ht
    · rw [if_neg hc] at ht
      rcases List.mem_singleton.mp ht with rfl
      intro ch hch
      exact hcur ch (List.mem_reverse.mp hch)
  | cons c rest ih =>
    intro cur hcur t ht
    rw [wordsAux] at ht
    by_cases hc : pyIsSpace c = true
    · rw [if_pos hc] at ht
      by_cases hcur2 : cur.isEmpty = true
      · rw [if_pos hcur2] at ht
        exact ih (by simp) t ht
      · rw [if_neg hcur2] at ht
        rcases List.mem_cons.mp ht with rfl | ht2
        · intro ch hch
          exact hcur ch (List.mem_reverse.mp hch)
        · exact ih (by simp) t ht2
    · rw [if_neg hc] at ht
      refine ih ?_ t ht
      intro ch hch
      rcases List.mem_cons.mp hch with rfl | h2
      · simpa using hc
      · exact hcur ch h2

/-- C9: appending another occurrence of a query term to a chunk (with a space
separator) never decreases the keyword score of that chunk for the query. -/
theorem keyword_score_monotone (query c t : List Char)
    (ht : t ∈ words (pyLower query)) :
    keywordScore query c ≤ keywordScore query (c ++ ' ' :: t) := by
  apply keywordScore_append_le
  intro ch hch
  rcases List.mem_cons.mp hch with rfl | h2
  · decide
  · have h3 := @wordsAux_mem_nonspace (pyLower query) [] (by simp) t ht ch h2
    intro heq
    rw [heq] at h3
    exact absurd h3 (by decide)

/-- Witness for C9 at a concrete query, chunk and term. -/
theorem keyword_score_monotone_witness :
    "cat".data ∈ words (pyLower "cat".data)
    ∧ keywordScore "cat".data "x".data
        ≤ keywordScore "cat".data ("x".data ++ ' ' :: "cat".data) :=
  ⟨by decide, keyword_score_monotone "cat".data "x".data "cat".data (by decide)⟩

/-! ## Claim C6: the keyword score formula -/

/-- C6 counterexample: for the query of the four tokens cat, of, dog, cat and
the chunk of the text cat dog, the code scores 9 (frequency 3 plus paragraph
bonus 6, no adjacency bonus because the pair cat dog is not adjacent in the
original token list), while the formula of the claim scores 12 (frequency 3,
adjacency bonus 5 over the discard-filtered list, distinct co-occurrence
bonus 4). -/
theorem keyword_spec_counterexample :
    keywordScore "cat of dog cat".data "cat dog".data = 9
    ∧ specKeywordScore "cat of dog cat".data "cat dog".data = 12
    ∧ keywordScore "cat of dog cat".data "cat dog".data
        ≠ specKeywordScore "cat of dog cat".data "cat dog".data := by
  refine ⟨by decide, by decide, by decide⟩

theorem freq_filter_eq (terms : List (List Char)) (cl : List Char) :
    freqScore terms cl
      = ((terms.filter (fun t => 2 < t.length)).map (fun t => countSub t cl)).sum := by
  induction terms with
  | nil => rfl
  | cons t ts ih =>
    simp only [freqScore, List.map_cons, List.sum_cons, List.filter_cons] at ih ⊢
    by_cases h : 2 < t.length
    · simp only [if_pos h, decide_eq_true_eq, h, ite_true, List.map_cons, List.sum_cons]
      rw [ih]
    · simp only [if_neg h, decide_eq_true_eq, h, ite_false]
      rw [ih]
      simp

theorem adj_countP_eq (terms : List (List Char)) (cl : List Char) :
    adjScore terms cl
      = 5 * ((terms.zip terms.tail).countP (fun p =>
          2 < p.1.length && (2 < p.2.length && hasSub (p.1 ++ ' ' :: p.2) cl))) := by
  rw [adjScore]
  generalize terms.zip terms.tail = L
  induction L with
  | nil => rfl
  | cons p ps ih =>
    rw [List.map_cons, List.sum_cons, List.countP_cons]
    by_cases h : 2 < p.1.length ∧ 2 < p.2.length ∧ hasSub (p.1 ++ ' ' :: p.2) cl = true
    · rw [if_pos h, ih,
        show (2 < p.1.length && (2 < p.2.length && hasSub (p.1 ++ ' ' :: p.2) cl)) = true
          from by simp [h.1, h.2.1, h.2.2]]
      norm_num
      omega
    · rw [if_neg h, ih,
        show (2 < p.1.length && (2 < p.2.length && hasSub (p.1 ++ ' ' :: p.2) cl)) = false
          from by
            simp only [Bool.and_eq_false_iff]
            by_cases h1 : 2 < p.1.length
            · by_cases h2 : 2 < p.2.length
              · refine Or.inr (Or.inr ?_)
                by_cases h3 : hasSub (p.1 ++ ' ' :: p.2) cl = true
                · exact absurd ⟨h1, h2, h3⟩ h
                · simpa using h3
              · exact Or.inr (Or.inl (by simpa using h2))
            · exact Or.inl (by simpa using h1)]
      simp

theorem countP_congr_eq {α : Type} (l : List α) (p q : α → Bool)
    (h : ∀ a ∈ l, p a = q a) : l.countP p = l.countP q := by
  induction l with
  | nil => rfl
  | cons a as ih =>
    rw [List.countP_cons, List.countP_cons, h a (by simp),
      ih (fun b hb => h b (by simp [hb]))]

/-- C6 amended: the keyword score equals the sum of the term-frequency part
over tokens longer than two characters, five per adjacent pair of the
original token list with both members longer than two characters whose joined
pair occurs in the chunk, and twice the multiplicity count of matching long
tokens for each paragraph with more than one match. -/
theorem keyword_score_amended (query content : List Char) :
    keywordScore query content = amendedKeywordScore query content := by
  simp only [keywordScore, amendedKeywordScore]
  rw [freq_filter_eq, adj_countP_eq]
  have hpara : ∀ para : List Char,
      (words (pyLower query)).countP (fun t => 2 < t.length && hasSub t (pyLower para))
        = ((words (pyLower query)).filter (fun t => 2 < t.length)).countP
            (fun t => hasSub t (pyLower para)) := by
    intro para
    rw [List.countP_filter]
    exact countP_congr_eq _ _ _ (fun t _ => by
      by_cases h1 : 2 < t.length
      · simp [h1]
      · simp [h1])
  congr 1
  rw [paraScore]
  apply congrArg
  apply List.map_congr_left
  intro para _
  rw [hpara para]
